import Mathlib

/-!
# Rasterization algorithms of `main.cpp`

A shallow embedding of the four rasterizers of `src/main.cpp`
(`computeDDA`, `computeBresenhamLine`, `computeBresenhamCircle`,
`computeMidpointCircle`) together with the properties stated about them.

Modelling conventions.

* A `Point` carries the integer coordinates only.  The colour fields `r, g, b`
  of the C++ struct are constants per algorithm and never influence control
  flow or coordinates.
* C++ `int` arithmetic is modelled in `Int`.  Signed overflow is undefined in
  C++, and coordinates are assumed to stay far from the 32-bit range.
* The global output vector of each function becomes the returned list, in
  push order.
* A `while` loop becomes a recursion on a fuel counter that bounds the number
  of loop-body executions.  `none` means the fuel ran out before the loop
  exited; `some l` means the loop exited and `l` is everything it pushed.
  Every statement below about a produced sequence also shows that enough fuel
  yields `some`.
* The `float` operations used by `computeDDA` are taken as a parameter
  (`FloatOps`); nothing below depends on how they round.
-/

namespace CGMidSem

/-- The coordinate part of `struct Point` (main.cpp:14-17). -/
structure Point where
  x : Int
  y : Int
deriving DecidableEq

/-- The C library `abs` on `int`. -/
def iabs (a : Int) : Int := if a < 0 then -a else a

/-- The `addPoints` lambda of both circle functions (main.cpp:96-108 and
129-141): the eight pushes, in source order. -/
def addPoints (xc yc x y : Int) : List Point :=
  [⟨xc + x, yc + y⟩, ⟨xc - x, yc + y⟩, ⟨xc + x, yc - y⟩, ⟨xc - x, yc - y⟩,
   ⟨xc + y, yc + x⟩, ⟨xc - y, yc + x⟩, ⟨xc + y, yc - x⟩, ⟨xc - y, yc - x⟩]

/-- The loop `while (y >= x) { ... }` of `computeBresenhamCircle`
(main.cpp:111-120).  The result lists the points pushed from the current
state on. -/
def bresenhamCircleLoop (xc yc : Int) : Nat → Int → Int → Int → Option (List Point)
  | 0, x, y, _ => if y ≥ x then none else some []
  | fuel + 1, x, y, d =>
    if y ≥ x then
      let x := x + 1
      if d > 0 then
        let y := y - 1
        let d := d + 4 * (x - y) + 10
        (bresenhamCircleLoop xc yc fuel x y d).map (addPoints xc yc x y ++ ·)
      else
        let d := d + 4 * x + 6
        (bresenhamCircleLoop xc yc fuel x y d).map (addPoints xc yc x y ++ ·)
    else some []

/-- The function `computeBresenhamCircle(xc, yc, r)` (main.cpp:91-121). -/
def computeBresenhamCircle (fuel : Nat) (xc yc r : Int) : Option (List Point) :=
  let x := 0
  let y := r
  let d := 3 - 2 * r
  (bresenhamCircleLoop xc yc fuel x y d).map (addPoints xc yc x y ++ ·)

/-- The loop `while (x < y) { ... }` of `computeMidpointCircle`
(main.cpp:144-153). -/
def midpointCircleLoop (xc yc : Int) : Nat → Int → Int → Int → Option (List Point)
  | 0, x, y, _ => if x < y then none else some []
  | fuel + 1, x, y, p =>
    if x < y then
      let x := x + 1
      if p < 0 then
        let p := p + 2 * x + 1
        (midpointCircleLoop xc yc fuel x y p).map (addPoints xc yc x y ++ ·)
      else
        let y := y - 1
        let p := p + 2 * (x - y) + 1
        (midpointCircleLoop xc yc fuel x y p).map (addPoints xc yc x y ++ ·)
    else some []

/-- The function `computeMidpointCircle(xc, yc, r)` (main.cpp:124-154). -/
def computeMidpointCircle (fuel : Nat) (xc yc r : Int) : Option (List Point) :=
  let x := 0
  let y := r
  let p := 1 - r
  (midpointCircleLoop xc yc fuel x y p).map (addPoints xc yc x y ++ ·)

/-- The loop `while (true) { ... }` of `computeBresenhamLine` (main.cpp:69-87).
The current point is pushed first; the loop is left when it equals the target.
Otherwise the two independent `if`s update `err`, `x1` and `y1`. -/
def bresenhamLineLoop (x2 y2 dx dy sx sy : Int) : Nat → Int → Int → Int → Option (List Point)
  | 0, _, _, _ => none
  | fuel + 1, x1, y1, err =>
    if x1 = x2 ∧ y1 = y2 then some [⟨x1, y1⟩]
    else
      let e2 := 2 * err
      let errx := if e2 > -dy then err - dy else err
      let x1n := if e2 > -dy then x1 + sx else x1
      let erry := if e2 < dx then errx + dx else errx
      let y1n := if e2 < dx then y1 + sy else y1
      (bresenhamLineLoop x2 y2 dx dy sx sy fuel x1n y1n erry).map (⟨x1, y1⟩ :: ·)

/-- The function `computeBresenhamLine(x1, y1, x2, y2)` (main.cpp:61-88). -/
def computeBresenhamLine (fuel : Nat) (x1 y1 x2 y2 : Int) : Option (List Point) :=
  let dx := iabs (x2 - x1)
  let dy := iabs (y2 - y1)
  let sx : Int := if x1 < x2 then 1 else -1
  let sy : Int := if y1 < y2 then 1 else -1
  let err := dx - dy
  bresenhamLineLoop x2 y2 dx dy sx sy fuel x1 y1 err

/-- The `float` operations `computeDDA` uses: conversion from `int`, division,
addition, and `round` followed by the conversion back to `int`. -/
structure FloatOps (F : Type) where
  ofInt : Int → F
  div : F → F → F
  add : F → F → F
  round : F → Int

/-- The value of `steps` in `computeDDA` (main.cpp:41-43). -/
def ddaSteps (x1 y1 x2 y2 : Int) : Int :=
  let dx := x2 - x1
  let dy := y2 - y1
  if iabs dx > iabs dy then iabs dx else iabs dy

/-- The pair `(xInc, yInc)` of `computeDDA` (main.cpp:45-46): both are
computed by an unconditional division by `(float)steps`. -/
def ddaIncrements {F : Type} (ops : FloatOps F) (x1 y1 x2 y2 : Int) : F × F :=
  let dx := x2 - x1
  let dy := y2 - y1
  let steps := ddaSteps x1 y1 x2 y2
  (ops.div (ops.ofInt dx) (ops.ofInt steps), ops.div (ops.ofInt dy) (ops.ofInt steps))

/-- The loop `for (int i = 0; i <= steps; i++)` of `computeDDA`
(main.cpp:49-57); the first argument is the number of iterations left. -/
def ddaLoop {F : Type} (ops : FloatOps F) (xInc yInc : F) : Nat → F → F → List Point
  | 0, _, _ => []
  | n + 1, x, y =>
    ⟨ops.round x, ops.round y⟩ :: ddaLoop ops xInc yInc n (ops.add x xInc) (ops.add y yInc)

/-- The function `computeDDA(x1, y1, x2, y2)` (main.cpp:39-58).  `steps` is
never negative, so the loop body runs `steps + 1` times. -/
def computeDDA {F : Type} (ops : FloatOps F) (x1 y1 x2 y2 : Int) : List Point :=
  let steps := ddaSteps x1 y1 x2 y2
  let inc := ddaIncrements ops x1 y1 x2 y2
  ddaLoop ops inc.1 inc.2 (steps.toNat + 1) (ops.ofInt x1) (ops.ofInt y1)

/-- Eight-way symmetry of a point list about the centre `(xc, yc)`: with every
point at offset `(a, b)` the list holds the points at all eight offsets
`(±a, ±b)` and `(±b, ±a)`. -/
def EightWaySymmetric (xc yc : Int) (l : List Point) : Prop :=
  ∀ a b : Int, (⟨xc + a, yc + b⟩ : Point) ∈ l →
    (⟨xc + a, yc + b⟩ : Point) ∈ l ∧ (⟨xc - a, yc + b⟩ : Point) ∈ l ∧
    (⟨xc + a, yc - b⟩ : Point) ∈ l ∧ (⟨xc - a, yc - b⟩ : Point) ∈ l ∧
    (⟨xc + b, yc + a⟩ : Point) ∈ l ∧ (⟨xc - b, yc + a⟩ : Point) ∈ l ∧
    (⟨xc + b, yc - a⟩ : Point) ∈ l ∧ (⟨xc - b, yc - a⟩ : Point) ∈ l

/-- Every point of the list lies in a complete `addPoints` block of the list. -/
def Blocks (xc yc : Int) (l : List Point) : Prop :=
  ∀ p ∈ l, ∃ u v, p ∈ addPoints xc yc u v ∧ ∀ q ∈ addPoints xc yc u v, q ∈ l

/-! ## The Bresenham line -/

/-- The C `abs` agrees with the absolute value. -/
theorem iabs_eq_abs (a : Int) : iabs a = |a| := by
  unfold iabs
  split_ifs with h
  · exact (abs_of_neg h).symm
  · exact (abs_of_nonneg (not_lt.mp h)).symm

/-- Loop invariant of the line loop when `x` is the dominant axis (`dy ≤ dx`,
`0 < dx`).  With `n` steps in `x` and `brem` steps in `y` still to go, and the
error term tied to them, the loop pushes exactly `n + 1` points, ends on the
target, and every pushed point is within half a pixel of the ideal line. -/
theorem lineLoop_xmajor (x2 y2 dx dy sx sy : Int) (hsx : sx = 1 ∨ sx = -1)
    (hsy : sy = 1 ∨ sy = -1) (hdx : 0 < dx) (hdy : 0 ≤ dy) (hle : dy ≤ dx) :
    ∀ (n : Nat) (brem : Int) (fuel : Nat) (x1 y1 err : Int), n < fuel →
      x1 = x2 - n * sx → y1 = y2 - brem * sy → err = dx - dy + n * dy - brem * dx →
      -dx ≤ 2 * (n * dy - brem * dx) → 2 * (n * dy - brem * dx) < dx →
      ∃ l, bresenhamLineLoop x2 y2 dx dy sx sy fuel x1 y1 err = some l ∧
        l.length = n + 1 ∧ l.head? = some ⟨x1, y1⟩ ∧ l.getLast? = some ⟨x2, y2⟩ ∧
        ∀ p ∈ l, 2 * |(x2 - p.x) * sx * dy - (y2 - p.y) * sy * dx| ≤ dx := by
  intro n
  induction n with
  | zero =>
    intro brem fuel x1 y1 err hf hx hy he hlo hhi
    obtain ⟨f, rfl⟩ : ∃ f, fuel = f + 1 := ⟨fuel - 1, by omega⟩
    have hb : brem = 0 := by
      simp only [Nat.cast_zero, zero_mul, zero_sub] at hlo hhi
      rcases lt_trichotomy brem 0 with h | h | h
      · nlinarith
      · exact h
      · nlinarith
    subst hb
    simp only [Nat.cast_zero, zero_mul, sub_zero] at hx hy
    subst hx hy
    refine ⟨[⟨x1, y1⟩], by simp [bresenhamLineLoop], rfl, rfl, rfl, ?_⟩
    intro p hp
    simp only [List.mem_singleton] at hp
    subst hp
    simp
    omega
  | succ n ih =>
    intro brem fuel x1 y1 err hf hx hy he hlo hhi
    obtain ⟨f, rfl⟩ : ∃ f, fuel = f + 1 := ⟨fuel - 1, by omega⟩
    push_cast at hx he hlo hhi
    have hne : ¬ (x1 = x2 ∧ y1 = y2) := by
      rintro ⟨h, -⟩
      rcases hsx with h1 | h1 <;> subst h1 <;> omega
    have hD : (n + 1 : Int) * dy - brem * dx = err - dx + dy := by rw [he]; ring
    rw [hD] at hlo hhi
    have hstep : 2 * err > -dy := by
      rcases eq_or_lt_of_le hle with h | h
      · subst h
        have h3 : ((n : Int) + 1 - brem) * dy = err := by rw [he]; ring
        have h4 : (n : Int) + 1 - brem = 0 := by
          rcases lt_trichotomy ((n : Int) + 1 - brem) 0 with h5 | h5 | h5
          · nlinarith
          · exact h5
          · nlinarith
        rw [h4] at h3
        omega
      · omega
    have hpt : 2 * |(x2 - x1) * sx * dy - (y2 - y1) * sy * dx| ≤ dx := by
      have hs1 : sx * sx = 1 := by rcases hsx with h | h <;> subst h <;> rfl
      have hs2 : sy * sy = 1 := by rcases hsy with h | h <;> subst h <;> rfl
      have : (x2 - x1) * sx * dy - (y2 - y1) * sy * dx = err - dx + dy := by
        rw [hx, hy, he]
        linear_combination ((n : Int) + 1) * dy * hs1 - brem * dx * hs2
      rw [this]
      rcases abs_cases (err - dx + dy) with ⟨h1, _⟩ | ⟨h1, _⟩ <;> rw [h1] <;> omega
    have hrec : ∃ l, bresenhamLineLoop x2 y2 dx dy sx sy f (x1 + sx)
        (if 2 * err < dx then y1 + sy else y1)
        (if 2 * err < dx then err - dy + dx else err - dy) = some l ∧
        l.length = n + 1 ∧ l.getLast? = some ⟨x2, y2⟩ ∧
        ∀ p ∈ l, 2 * |(x2 - p.x) * sx * dy - (y2 - p.y) * sy * dx| ≤ dx := by
      by_cases hy2 : 2 * err < dx
      · simp only [hy2, if_true]
        obtain ⟨l, h1, h2, -, h4, h5⟩ := ih (brem - 1) f (x1 + sx) (y1 + sy) (err - dy + dx)
          (by omega) (by rw [hx]; ring) (by rw [hy]; ring) (by rw [he]; ring)
          (by have : (n : Int) * dy - (brem - 1) * dx = err - dy + dx - dx + dy := by
                rw [he]; ring
              rw [this]; omega)
          (by have : (n : Int) * dy - (brem - 1) * dx = err - dy + dx - dx + dy := by
                rw [he]; ring
              rw [this]; omega)
        exact ⟨l, h1, h2, h4, h5⟩
      · simp only [hy2, if_false]
        obtain ⟨l, h1, h2, -, h4, h5⟩ := ih brem f (x1 + sx) y1 (err - dy)
          (by omega) (by rw [hx]; ring) hy (by rw [he]; ring)
          (by have : (n : Int) * dy - brem * dx = err - dy - dx + dy := by
                rw [he]; ring
              rw [this]; omega)
          (by have : (n : Int) * dy - brem * dx = err - dy - dx + dy := by
                rw [he]; ring
              rw [this]; omega)
        exact ⟨l, h1, h2, h4, h5⟩
    obtain ⟨l, h1, h2, h4, h5⟩ := hrec
    have hunf : bresenhamLineLoop x2 y2 dx dy sx sy (f + 1) x1 y1 err = some (⟨x1, y1⟩ :: l) := by
      simp only [bresenhamLineLoop, if_neg hne, hstep, if_true, gt_iff_lt]
      by_cases hy2 : 2 * err < dx
      · simp only [hy2, if_true] at h1 ⊢
        rw [h1]; rfl
      · simp only [hy2, if_false] at h1 ⊢
        rw [h1]; rfl
    refine ⟨⟨x1, y1⟩ :: l, hunf, by simp [h2], rfl, ?_, ?_⟩
    · cases l with
      | nil => simp at h2
      | cons q t => rw [List.getLast?_cons_cons]; exact h4
    · intro p hp
      rcases List.mem_cons.mp hp with h | h
      · subst h; exact hpt
      · exact h5 p h

/-- Loop invariant of the line loop when `y` is the dominant axis (`dx < dy`),
the mirror image of `lineLoop_xmajor`. -/
theorem lineLoop_ymajor (x2 y2 dx dy sx sy : Int) (hsx : sx = 1 ∨ sx = -1)
    (hsy : sy = 1 ∨ sy = -1) (hdx : 0 ≤ dx) (hlt : dx < dy) :
    ∀ (m : Nat) (arem : Int) (fuel : Nat) (x1 y1 err : Int), m < fuel →
      x1 = x2 - arem * sx → y1 = y2 - m * sy → err = dx - dy + arem * dy - m * dx →
      -dy < 2 * (arem * dy - m * dx) → 2 * (arem * dy - m * dx) ≤ dy →
      ∃ l, bresenhamLineLoop x2 y2 dx dy sx sy fuel x1 y1 err = some l ∧
        l.length = m + 1 ∧ l.head? = some ⟨x1, y1⟩ ∧ l.getLast? = some ⟨x2, y2⟩ ∧
        ∀ p ∈ l, 2 * |(x2 - p.x) * sx * dy - (y2 - p.y) * sy * dx| ≤ dy := by
  intro m
  induction m with
  | zero =>
    intro arem fuel x1 y1 err hf hx hy he hlo hhi
    obtain ⟨f, rfl⟩ : ∃ f, fuel = f + 1 := ⟨fuel - 1, by omega⟩
    have ha : arem = 0 := by
      simp only [Nat.cast_zero, zero_mul, sub_zero] at hlo hhi
      rcases lt_trichotomy arem 0 with h | h | h
      · nlinarith
      · exact h
      · nlinarith
    subst ha
    simp only [Nat.cast_zero, zero_mul, sub_zero] at hx hy
    subst hx hy
    refine ⟨[⟨x1, y1⟩], by simp [bresenhamLineLoop], rfl, rfl, rfl, ?_⟩
    intro p hp
    simp only [List.mem_singleton] at hp
    subst hp
    simp
    omega
  | succ m ih =>
    intro arem fuel x1 y1 err hf hx hy he hlo hhi
    obtain ⟨f, rfl⟩ : ∃ f, fuel = f + 1 := ⟨fuel - 1, by omega⟩
    push_cast at hy he hlo hhi
    have hne : ¬ (x1 = x2 ∧ y1 = y2) := by
      rintro ⟨-, h⟩
      rcases hsy with h1 | h1 <;> subst h1 <;> omega
    have hD : arem * dy - ((m : Int) + 1) * dx = err - dx + dy := by rw [he]; ring
    rw [hD] at hlo hhi
    have hstep : 2 * err < dx := by omega
    have hpt : 2 * |(x2 - x1) * sx * dy - (y2 - y1) * sy * dx| ≤ dy := by
      have hs1 : sx * sx = 1 := by rcases hsx with h | h <;> subst h <;> rfl
      have hs2 : sy * sy = 1 := by rcases hsy with h | h <;> subst h <;> rfl
      have : (x2 - x1) * sx * dy - (y2 - y1) * sy * dx = err - dx + dy := by
        rw [hx, hy, he]
        linear_combination arem * dy * hs1 - ((m : Int) + 1) * dx * hs2
      rw [this]
      rcases abs_cases (err - dx + dy) with ⟨h1, _⟩ | ⟨h1, _⟩ <;> rw [h1] <;> omega
    have hrec : ∃ l, bresenhamLineLoop x2 y2 dx dy sx sy f
        (if 2 * err > -dy then x1 + sx else x1) (y1 + sy)
        (if 2 * err > -dy then err - dy + dx else err + dx) = some l ∧
        l.length = m + 1 ∧ l.getLast? = some ⟨x2, y2⟩ ∧
        ∀ p ∈ l, 2 * |(x2 - p.x) * sx * dy - (y2 - p.y) * sy * dx| ≤ dy := by
      by_cases hx2 : 2 * err > -dy
      · simp only [hx2, if_true]
        obtain ⟨l, h1, h2, -, h4, h5⟩ := ih (arem - 1) f (x1 + sx) (y1 + sy) (err - dy + dx)
          (by omega) (by rw [hx]; ring) (by rw [hy]; ring) (by rw [he]; ring)
          (by have : (arem - 1) * dy - (m : Int) * dx = err - dy + dx - dx + dy := by
                rw [he]; ring
              rw [this]; omega)
          (by have : (arem - 1) * dy - (m : Int) * dx = err - dy + dx - dx + dy := by
                rw [he]; ring
              rw [this]; omega)
        exact ⟨l, h1, h2, h4, h5⟩
      · simp only [hx2, if_false]
        obtain ⟨l, h1, h2, -, h4, h5⟩ := ih arem f x1 (y1 + sy) (err + dx)
          (by omega) hx (by rw [hy]; ring) (by rw [he]; ring)
          (by have : arem * dy - (m : Int) * dx = err + dx - dx + dy := by
                rw [he]; ring
              rw [this]; omega)
          (by have : arem * dy - (m : Int) * dx = err + dx - dx + dy := by
                rw [he]; ring
              rw [this]; omega)
        exact ⟨l, h1, h2, h4, h5⟩
    obtain ⟨l, h1, h2, h4, h5⟩ := hrec
    have hunf : bresenhamLineLoop x2 y2 dx dy sx sy (f + 1) x1 y1 err = some (⟨x1, y1⟩ :: l) := by
      simp only [bresenhamLineLoop, if_neg hne, hstep, if_true, gt_iff_lt]
      by_cases hx2 : 2 * err > -dy
      · simp only [gt_iff_lt] at hx2
        simp only [hx2, if_true] at h1 ⊢
        rw [h1]; rfl
      · simp only [gt_iff_lt] at hx2
        simp only [hx2, if_false] at h1 ⊢
        rw [h1]; rfl
    refine ⟨⟨x1, y1⟩ :: l, hunf, by simp [h2], rfl, ?_, ?_⟩
    · cases l with
      | nil => simp at h2
      | cons q t => rw [List.getLast?_cons_cons]; exact h4
    · intro p hp
      rcases List.mem_cons.mp hp with h | h
      · subst h; exact hpt
      · exact h5 p h

/-- The deviation of a point from the ideal line, measured from either
endpoint, has the same absolute value. -/
theorem cross_abs_eq (x1 y1 x2 y2 dx dy sx sy px py : Int) (hsx : sx = 1 ∨ sx = -1)
    (hsy : sy = 1 ∨ sy = -1) (hx : x2 - x1 = sx * dx) (hy : y2 - y1 = sy * dy) :
    |(px - x1) * (y2 - y1) - (py - y1) * (x2 - x1)|
      = |(x2 - px) * sx * dy - (y2 - py) * sy * dx| := by
  have e1 : x2 = x1 + sx * dx := by omega
  have e2 : y2 = y1 + sy * dy := by omega
  subst e1 e2
  rcases hsx with h | h <;> rcases hsy with h' | h' <;> subst h h'
  · rw [← abs_neg]; congr 1; ring
  · congr 1; ring
  · congr 1; ring
  · rw [← abs_neg]; congr 1; ring

/-- Full description of the output of `computeBresenhamLine`: with more fuel
than the dominant-axis distance the loop exits, and the pushed sequence has
the stated length, endpoints and half-pixel accuracy. -/
theorem computeBresenhamLine_spec (x1 y1 x2 y2 : Int) (fuel : Nat)
    (hf : max |x2 - x1| |y2 - y1| < (fuel : Int)) :
    ∃ l, computeBresenhamLine fuel x1 y1 x2 y2 = some l ∧
      (l.length : Int) = max |x2 - x1| |y2 - y1| + 1 ∧
      l.head? = some ⟨x1, y1⟩ ∧ l.getLast? = some ⟨x2, y2⟩ ∧
      ∀ p ∈ l, 2 * |(p.x - x1) * (y2 - y1) - (p.y - y1) * (x2 - x1)|
        ≤ max |x2 - x1| |y2 - y1| := by
  unfold computeBresenhamLine
  simp only [iabs_eq_abs]
  generalize hdx : |x2 - x1| = dx at hf ⊢
  generalize hdy : |y2 - y1| = dy at hf ⊢
  generalize hsx : (if x1 < x2 then (1 : Int) else -1) = sx
  generalize hsy : (if y1 < y2 then (1 : Int) else -1) = sy
  have hdx0 : 0 ≤ dx := hdx ▸ abs_nonneg _
  have hdy0 : 0 ≤ dy := hdy ▸ abs_nonneg _
  have hsx1 : sx = 1 ∨ sx = -1 := by rw [← hsx]; split_ifs <;> simp
  have hsy1 : sy = 1 ∨ sy = -1 := by rw [← hsy]; split_ifs <;> simp
  have hxs : x2 - x1 = sx * dx := by
    rw [← hsx, ← hdx]
    split_ifs with h
    · rw [abs_of_pos (by omega)]; ring
    · rw [abs_of_nonpos (by omega)]; ring
  have hys : y2 - y1 = sy * dy := by
    rw [← hsy, ← hdy]
    split_ifs with h
    · rw [abs_of_pos (by omega)]; ring
    · rw [abs_of_nonpos (by omega)]; ring
  rcases lt_or_le dx dy with hlt | hle
  · -- y is the dominant axis
    have hmax : max dx dy = dy := max_eq_right (le_of_lt hlt)
    rw [hmax] at hf ⊢
    have hm : ((dy.toNat : Nat) : Int) = dy := Int.toNat_of_nonneg hdy0
    obtain ⟨l, h1, h2, h3, h4, h5⟩ := lineLoop_ymajor x2 y2 dx dy sx sy hsx1 hsy1 hdx0 hlt
      dy.toNat dx fuel x1 y1 (dx - dy) (by omega) (by linear_combination -hxs)
      (by rw [hm]; linear_combination -hys) (by rw [hm]; ring)
      (by rw [hm]; have : dx * dy - dy * dx = 0 := by ring
          rw [this]; omega)
      (by rw [hm]; have : dx * dy - dy * dx = 0 := by ring
          rw [this]; omega)
    refine ⟨l, h1, by rw [h2]; push_cast; rw [hm], h3, h4, ?_⟩
    intro p hp
    rw [cross_abs_eq x1 y1 x2 y2 dx dy sx sy p.x p.y hsx1 hsy1 hxs hys]
    exact h5 p hp
  · rcases eq_or_lt_of_le hdx0 with h0 | hpos
    · -- coincident endpoints
      subst h0
      have hdy' : dy = 0 := le_antisymm hle hdy0
      subst hdy'
      have ex : x1 = x2 := by
        have := abs_eq_zero.mp hdx; omega
      have ey : y1 = y2 := by
        have := abs_eq_zero.mp hdy; omega
      subst ex ey
      obtain ⟨f, rfl⟩ : ∃ f, fuel = f + 1 := ⟨fuel - 1, by simp at hf; omega⟩
      refine ⟨[⟨x1, y1⟩], by simp [bresenhamLineLoop], by simp, rfl, rfl, ?_⟩
      intro p hp
      simp only [List.mem_singleton] at hp
      subst hp
      simp
    · -- x is the dominant axis (or the line is diagonal)
      have hmax : max dx dy = dx := max_eq_left hle
      rw [hmax] at hf ⊢
      have hn : ((dx.toNat : Nat) : Int) = dx := Int.toNat_of_nonneg hdx0
      obtain ⟨l, h1, h2, h3, h4, h5⟩ := lineLoop_xmajor x2 y2 dx dy sx sy hsx1 hsy1 hpos hdy0
        hle dx.toNat dy fuel x1 y1 (dx - dy) (by omega)
        (by rw [hn]; linear_combination -hxs) (by linear_combination -hys) (by rw [hn]; ring)
        (by rw [hn]; have : dx * dy - dy * dx = 0 := by ring
            rw [this]; omega)
        (by rw [hn]; have : dx * dy - dy * dx = 0 := by ring
            rw [this]; omega)
      refine ⟨l, h1, by rw [h2]; push_cast; rw [hn], h3, h4, ?_⟩
      intro p hp
      rw [cross_abs_eq x1 y1 x2 y2 dx dy sx sy p.x p.y hsx1 hsy1 hxs hys]
      exact h5 p hp

/-! ## The circles -/

/-- All eight points of an `addPoints` block are at squared distance
`x² + y²` from the centre. -/
theorem addPoints_dist (xc yc x y : Int) :
    ∀ p ∈ addPoints xc yc x y, (p.x - xc) ^ 2 + (p.y - yc) ^ 2 = x * x + y * y := by
  intro p hp
  simp only [addPoints, List.mem_cons, List.mem_singleton, List.not_mem_nil, or_false] at hp
  rcases hp with h | h | h | h | h | h | h | h <;> subst h <;> simp only <;> ring

/-- Loop invariant of the midpoint loop.  With `e = x² + y² - r²`, the decision
value is `p = e + 2x + 1 - y` and `-y ≤ e ≤ y` (one more at the final state),
so every pushed point has `|e| ≤ r + 1`. -/
theorem midpointLoop_bound (xc yc r : Int) :
    ∀ (fuel : Nat) (x y p e : Int), y - x ≤ fuel → 0 ≤ x → y ≤ r →
      x * x + y * y - r * r = e → p = e + 2 * x + 1 - y → -y ≤ e →
      (e ≤ y ∨ (e ≤ y + 1 ∧ y ≤ x)) →
      ∃ l, midpointCircleLoop xc yc fuel x y p = some l ∧
        ∀ q ∈ l, |(q.x - xc) ^ 2 + (q.y - yc) ^ 2 - r ^ 2| ≤ r + 1 := by
  intro fuel
  induction fuel with
  | zero =>
    intro x y p e hf _ _ _ _ _ _
    refine ⟨[], ?_, by simp⟩
    have : ¬ x < y := by simp at hf; omega
    simp [midpointCircleLoop, this]
  | succ f ih =>
    intro x y p e hf hx hy he hp hlo hhi
    by_cases hxy : x < y
    · have hhi1 : e ≤ y := by
        rcases hhi with h | ⟨_, h⟩
        · exact h
        · omega
      push_cast at hf
      by_cases hp0 : p < 0
      · have he1 : (x + 1) * (x + 1) + y * y - r * r = e + 2 * x + 1 := by
          rw [← he]; ring
        obtain ⟨l, h1, h2⟩ := ih (x + 1) y (p + 2 * (x + 1) + 1) (e + 2 * x + 1)
          (by omega) (by omega) hy he1 (by omega) (by omega) (Or.inl (by omega))
        refine ⟨addPoints xc yc (x + 1) y ++ l, ?_, ?_⟩
        · simp only [midpointCircleLoop, hxy, hp0, if_true, h1, Option.map_some']
        · intro q hq
          rcases List.mem_append.mp hq with h | h
          · rw [addPoints_dist xc yc (x + 1) y q h, sq r,  he1]
            rcases abs_cases (e + 2 * x + 1) with ⟨h3, _⟩ | ⟨h3, _⟩ <;> rw [h3] <;> omega
          · exact h2 q h
      · have he1 : (x + 1) * (x + 1) + (y - 1) * (y - 1) - r * r = e + 2 * x - 2 * y + 2 := by
          rw [← he]; ring
        obtain ⟨l, h1, h2⟩ := ih (x + 1) (y - 1) (p + 2 * ((x + 1) - (y - 1)) + 1)
          (e + 2 * x - 2 * y + 2)
          (by omega) (by omega) (by omega) he1 (by omega) (by omega) (by omega)
        refine ⟨addPoints xc yc (x + 1) (y - 1) ++ l, ?_, ?_⟩
        · simp only [midpointCircleLoop, hxy, hp0, if_true, if_false, h1, Option.map_some']
        · intro q hq
          rcases List.mem_append.mp hq with h | h
          · rw [addPoints_dist xc yc (x + 1) (y - 1) q h, sq r, he1]
            rcases abs_cases (e + 2 * x - 2 * y + 2) with ⟨h3, _⟩ | ⟨h3, _⟩ <;> rw [h3] <;> omega
          · exact h2 q h
    · refine ⟨[], ?_, by simp⟩
      simp [midpointCircleLoop, hxy]

/-- A block that holds the point at offset `(a, b)` holds the whole block of
`(a, b)`. -/
theorem addPoints_closed (xc yc x y a b : Int)
    (h : (⟨xc + a, yc + b⟩ : Point) ∈ addPoints xc yc x y) :
    ∀ q ∈ addPoints xc yc a b, q ∈ addPoints xc yc x y := by
  intro q hq
  simp only [addPoints, List.mem_cons, List.mem_singleton, List.not_mem_nil, or_false,
    Point.mk.injEq, sub_eq_add_neg, add_right_inj] at h
  rcases h with h | h | h | h | h | h | h | h <;>
    obtain ⟨ea, eb⟩ := h <;>
    subst ea eb <;>
    simp only [addPoints, List.mem_cons, List.mem_singleton, List.not_mem_nil, or_false,
      sub_eq_add_neg, neg_neg] at hq ⊢ <;>
    tauto

/-- The empty list is made of blocks. -/
theorem blocks_nil (xc yc : Int) : Blocks xc yc [] := by
  intro p hp; simp at hp

/-- Putting a block in front keeps a list made of blocks. -/
theorem blocks_append (xc yc u v : Int) (l : List Point) (h : Blocks xc yc l) :
    Blocks xc yc (addPoints xc yc u v ++ l) := by
  intro p hp
  rcases List.mem_append.mp hp with h1 | h1
  · exact ⟨u, v, h1, fun q hq => List.mem_append.mpr (Or.inl hq)⟩
  · obtain ⟨u1, v1, h2, h3⟩ := h p h1
    exact ⟨u1, v1, h2, fun q hq => List.mem_append.mpr (Or.inr (h3 q hq))⟩

/-- A list made of complete blocks is eight-way symmetric. -/
theorem blocks_eightWay (xc yc : Int) (l : List Point) (h : Blocks xc yc l) :
    EightWaySymmetric xc yc l := by
  intro a b hab
  obtain ⟨u, v, h1, h2⟩ := h _ hab
  have h3 := addPoints_closed xc yc u v a b h1
  have h4 : ∀ q ∈ addPoints xc yc a b, q ∈ l := fun q hq => h2 q (h3 q hq)
  refine ⟨?_, ?_, ?_, ?_, ?_, ?_, ?_, ?_⟩ <;> apply h4 <;> simp [addPoints]

/-- With `y - x + 1` fuel the Bresenham circle loop exits, and what it pushes
is made of complete blocks. -/
theorem bresenhamCircleLoop_blocks (xc yc : Int) :
    ∀ (fuel : Nat) (x y d : Int), y - x + 1 ≤ fuel →
      ∃ l, bresenhamCircleLoop xc yc fuel x y d = some l ∧ Blocks xc yc l := by
  intro fuel
  induction fuel with
  | zero =>
    intro x y d hf
    have : ¬ y ≥ x := by simp at hf; omega
    exact ⟨[], by simp [bresenhamCircleLoop, this], blocks_nil xc yc⟩
  | succ f ih =>
    intro x y d hf
    push_cast at hf
    by_cases hxy : y ≥ x
    · by_cases hd : d > 0
      · obtain ⟨l, h1, h2⟩ := ih (x + 1) (y - 1) (d + 4 * ((x + 1) - (y - 1)) + 10) (by omega)
        exact ⟨addPoints xc yc (x + 1) (y - 1) ++ l,
          by simp only [bresenhamCircleLoop, hxy, hd, if_true, h1, Option.map_some'],
          blocks_append xc yc _ _ l h2⟩
      · obtain ⟨l, h1, h2⟩ := ih (x + 1) y (d + 4 * (x + 1) + 6) (by omega)
        exact ⟨addPoints xc yc (x + 1) y ++ l,
          by simp only [bresenhamCircleLoop, hxy, hd, if_true, if_false, h1, Option.map_some'],
          blocks_append xc yc _ _ l h2⟩
    · exact ⟨[], by simp [bresenhamCircleLoop, hxy], blocks_nil xc yc⟩

/-- With `y - x` fuel the midpoint circle loop exits, and what it pushes is
made of complete blocks. -/
theorem midpointCircleLoop_blocks (xc yc : Int) :
    ∀ (fuel : Nat) (x y p : Int), y - x ≤ fuel →
      ∃ l, midpointCircleLoop xc yc fuel x y p = some l ∧ Blocks xc yc l := by
  intro fuel
  induction fuel with
  | zero =>
    intro x y p hf
    have : ¬ x < y := by simp at hf; omega
    exact ⟨[], by simp [midpointCircleLoop, this], blocks_nil xc yc⟩
  | succ f ih =>
    intro x y p hf
    push_cast at hf
    by_cases hxy : x < y
    · by_cases hp : p < 0
      · obtain ⟨l, h1, h2⟩ := ih (x + 1) y (p + 2 * (x + 1) + 1) (by omega)
        exact ⟨addPoints xc yc (x + 1) y ++ l,
          by simp only [midpointCircleLoop, hxy, hp, if_true, h1, Option.map_some'],
          blocks_append xc yc _ _ l h2⟩
      · obtain ⟨l, h1, h2⟩ := ih (x + 1) (y - 1) (p + 2 * ((x + 1) - (y - 1)) + 1) (by omega)
        exact ⟨addPoints xc yc (x + 1) (y - 1) ++ l,
          by simp only [midpointCircleLoop, hxy, hp, if_true, if_false, h1, Option.map_some'],
          blocks_append xc yc _ _ l h2⟩
    · exact ⟨[], by simp [midpointCircleLoop, hxy], blocks_nil xc yc⟩

/-- When the guard `y >= x` is false the Bresenham circle loop pushes nothing,
whatever the fuel. -/
theorem bresenhamCircleLoop_exit (xc yc : Int) (fuel : Nat) (x y d : Int) (h : ¬ y ≥ x) :
    bresenhamCircleLoop xc yc fuel x y d = some [] := by
  cases fuel <;> simp [bresenhamCircleLoop, h]

/-- When the guard `x < y` is false the midpoint circle loop pushes nothing,
whatever the fuel. -/
theorem midpointCircleLoop_exit (xc yc : Int) (fuel : Nat) (x y p : Int) (h : ¬ x < y) :
    midpointCircleLoop xc yc fuel x y p = some [] := by
  cases fuel <;> simp [midpointCircleLoop, h]

/-! ## The claims -/

set_option maxRecDepth 100000

/-- C1 (evaluation at the failing input).  The call
`computeBresenhamCircle(225, 385, 80)` made by `init` returns a sequence
containing the point `(275, 446)`, at offset `(50, 61)` from the centre, for
which `|50² + 61² - 80²| = 179` exceeds `2·80 + 1 = 161`: the distance bound
does not hold for the Bresenham circle. -/
theorem bresenhamCircle_r80_violates_bound :
    ∃ l, computeBresenhamCircle 81 225 385 80 = some l ∧
      ∃ p ∈ l, ¬ (|((p.x - 225) ^ 2 + (p.y - 385) ^ 2) - (80 : Int) ^ 2| ≤ 2 * 80 + 1) :=
  ⟨_, rfl, ⟨275, 446⟩, by decide, by decide⟩

/-- C2.  For every radius `r > 0` and every centre, `computeMidpointCircle`
run with at least `r` loop iterations allowed returns a sequence, and every
point `(x, y)` of it satisfies `|((x - xc)² + (y - yc)²) - r²| ≤ 2r + 1`. -/
theorem computeMidpointCircle_error_bound (xc yc r : Int) (fuel : Nat) (hr : 0 < r)
    (hf : r ≤ (fuel : Int)) :
    ∃ l, computeMidpointCircle fuel xc yc r = some l ∧
      ∀ p ∈ l, |((p.x - xc) ^ 2 + (p.y - yc) ^ 2) - r ^ 2| ≤ 2 * r + 1 := by
  obtain ⟨l, h1, h2⟩ := midpointLoop_bound xc yc r fuel 0 r (1 - r) 0
    (by omega) (le_refl 0) (le_refl r) (by ring) (by ring) (by omega) (Or.inl (by omega))
  refine ⟨addPoints xc yc 0 r ++ l, ?_, ?_⟩
  · simp only [computeMidpointCircle, h1, Option.map_some']
  · intro q hq
    rcases List.mem_append.mp hq with h | h
    · rw [addPoints_dist xc yc 0 r q h]
      have : (0 : Int) * 0 + r * r - r ^ 2 = 0 := by ring
      rw [this]; simp; omega
    · exact le_trans (h2 q h) (by omega)

/-- Witness for C2 at the call `computeMidpointCircle(625, 385, 80)` made by
`init`. -/
theorem computeMidpointCircle_error_bound_witness :
    ∃ l, computeMidpointCircle 80 625 385 80 = some l ∧
      ∀ p ∈ l, |((p.x - 625) ^ 2 + (p.y - 385) ^ 2) - (80 : Int) ^ 2| ≤ 2 * 80 + 1 :=
  computeMidpointCircle_error_bound 625 385 80 80 (by decide) (by decide)

/-- C3.  For all integer endpoints, `computeBresenhamLine` run with more fuel
than `max(|x2 - x1|, |y2 - y1|)` terminates and returns a non-empty sequence
whose first point is `(x1, y1)` and whose last point is `(x2, y2)`. -/
theorem computeBresenhamLine_endpoints (x1 y1 x2 y2 : Int) (fuel : Nat)
    (hf : max |x2 - x1| |y2 - y1| < (fuel : Int)) :
    ∃ l, computeBresenhamLine fuel x1 y1 x2 y2 = some l ∧ l ≠ [] ∧
      l.head? = some ⟨x1, y1⟩ ∧ l.getLast? = some ⟨x2, y2⟩ := by
  obtain ⟨l, h1, -, h3, h4, -⟩ := computeBresenhamLine_spec x1 y1 x2 y2 fuel hf
  refine ⟨l, h1, ?_, h3, h4⟩
  intro h
  rw [h] at h3
  simp at h3

/-- Witness for C3 at a steep line running down and to the right. -/
theorem computeBresenhamLine_endpoints_witness :
    ∃ l, computeBresenhamLine 8 0 0 3 (-7) = some l ∧ l ≠ [] ∧
      l.head? = some ⟨0, 0⟩ ∧ l.getLast? = some ⟨3, -7⟩ :=
  computeBresenhamLine_endpoints 0 0 3 (-7) 8 (by decide)

/-- C4.  For all integer endpoints, the sequence returned by
`computeBresenhamLine` has exactly `max(|x2 - x1|, |y2 - y1|) + 1` points. -/
theorem computeBresenhamLine_length (x1 y1 x2 y2 : Int) (fuel : Nat)
    (hf : max |x2 - x1| |y2 - y1| < (fuel : Int)) :
    ∃ l, computeBresenhamLine fuel x1 y1 x2 y2 = some l ∧
      (l.length : Int) = max |x2 - x1| |y2 - y1| + 1 := by
  obtain ⟨l, h1, h2, -⟩ := computeBresenhamLine_spec x1 y1 x2 y2 fuel hf
  exact ⟨l, h1, h2⟩

/-- Witness for C4 at the call `computeBresenhamLine(500, 630, 750, 720)` made
by `init`: the sequence has 251 points. -/
theorem computeBresenhamLine_length_witness :
    ∃ l, computeBresenhamLine 251 500 630 750 720 = some l ∧ l.length = 251 := by
  obtain ⟨l, h1, h2⟩ := computeBresenhamLine_length 500 630 750 720 251 (by decide)
  refine ⟨l, h1, ?_⟩
  have h3 : max |(750 : Int) - 500| |(720 : Int) - 630| = 250 := by decide
  rw [h3] at h2
  omega

/-- C5 (evaluation at the failing input).  `computeBresenhamCircle(0, 0, 5)`
and `computeMidpointCircle(0, 0, 5)` do not produce the same set of points:
`(3, 3)` occurs only in the Bresenham sequence and `(2, 5)` only in the
midpoint sequence. -/
theorem circle_point_sets_differ_r5 :
    ∃ lb lm, computeBresenhamCircle 6 0 0 5 = some lb ∧
      computeMidpointCircle 6 0 0 5 = some lm ∧
      (⟨3, 3⟩ : Point) ∈ lb ∧ (⟨3, 3⟩ : Point) ∉ lm ∧
      (⟨2, 5⟩ : Point) ∈ lm ∧ (⟨2, 5⟩ : Point) ∉ lb :=
  ⟨_, _, rfl, rfl, by decide, by decide, by decide, by decide⟩

/-- C6.  For every centre and every radius (in particular every `r ≥ 0`), both
circle functions run with more than `r` loop iterations allowed return a
sequence, and whenever a point `(xc + a, yc + b)` occurs in it, the points at
all eight offsets `(±a, ±b)`, `(±b, ±a)` occur in that same sequence. -/
theorem circles_eight_way_symmetric (xc yc r : Int) (fuel : Nat)
    (hf : r < (fuel : Int)) :
    (∃ l, computeBresenhamCircle fuel xc yc r = some l ∧ EightWaySymmetric xc yc l) ∧
    (∃ l, computeMidpointCircle fuel xc yc r = some l ∧ EightWaySymmetric xc yc l) := by
  constructor
  · obtain ⟨l, h1, h2⟩ := bresenhamCircleLoop_blocks xc yc fuel 0 r (3 - 2 * r) (by omega)
    exact ⟨addPoints xc yc 0 r ++ l, by simp only [computeBresenhamCircle, h1, Option.map_some'],
      blocks_eightWay xc yc _ (blocks_append xc yc 0 r l h2)⟩
  · obtain ⟨l, h1, h2⟩ := midpointCircleLoop_blocks xc yc fuel 0 r (1 - r) (by omega)
    exact ⟨addPoints xc yc 0 r ++ l, by simp only [computeMidpointCircle, h1, Option.map_some'],
      blocks_eightWay xc yc _ (blocks_append xc yc 0 r l h2)⟩

/-- Witness for C6 at centre `(225, 385)` and radius 80. -/
theorem circles_eight_way_symmetric_witness :
    (∃ l, computeBresenhamCircle 81 225 385 80 = some l ∧ EightWaySymmetric 225 385 l) ∧
    (∃ l, computeMidpointCircle 81 225 385 80 = some l ∧ EightWaySymmetric 225 385 l) :=
  circles_eight_way_symmetric 225 385 80 81 (by decide)

/-- C7 (evaluation at the failing input).  For every centre,
`computeBresenhamCircle(xc, yc, 0)` returns sixteen points, not eight: the
guard `y >= x` holds at `x = y = 0`, so the loop body runs once and pushes the
block of `(1, -1)`, whose points `(xc ± 1, yc ± 1)` are not the centre.  The
sibling `computeMidpointCircle(xc, yc, 0)` returns the eight centre points
only. -/
theorem computeBresenhamCircle_zero_radius (xc yc : Int) (fuel : Nat) :
    computeBresenhamCircle (fuel + 1) xc yc 0 = some
      [⟨xc + 0, yc + 0⟩, ⟨xc - 0, yc + 0⟩, ⟨xc + 0, yc - 0⟩, ⟨xc - 0, yc - 0⟩,
       ⟨xc + 0, yc + 0⟩, ⟨xc - 0, yc + 0⟩, ⟨xc + 0, yc - 0⟩, ⟨xc - 0, yc - 0⟩,
       ⟨xc + 1, yc + -1⟩, ⟨xc - 1, yc + -1⟩, ⟨xc + 1, yc - -1⟩, ⟨xc - 1, yc - -1⟩,
       ⟨xc + -1, yc + 1⟩, ⟨xc - -1, yc + 1⟩, ⟨xc + -1, yc - 1⟩, ⟨xc - -1, yc - 1⟩] ∧
    computeMidpointCircle fuel xc yc 0 = some
      [⟨xc + 0, yc + 0⟩, ⟨xc - 0, yc + 0⟩, ⟨xc + 0, yc - 0⟩, ⟨xc - 0, yc - 0⟩,
       ⟨xc + 0, yc + 0⟩, ⟨xc - 0, yc + 0⟩, ⟨xc + 0, yc - 0⟩, ⟨xc - 0, yc - 0⟩] := by
  have h := bresenhamCircleLoop_exit xc yc fuel 1 (-1) 21 (by decide)
  have h2 := midpointCircleLoop_exit xc yc fuel 0 0 1 (by decide)
  constructor
  · simp [computeBresenhamCircle, bresenhamCircleLoop, h, addPoints]
  · simp [computeMidpointCircle, h2, addPoints]

/-- C8 (counterexample).  With centre `(0, 0)` and radius `-1` both circle
functions return an eight-point sequence; neither call fails and neither
returns no points. -/
theorem negative_radius_counterexample :
    computeBresenhamCircle 0 0 0 (-1) = some
      [⟨0, -1⟩, ⟨0, -1⟩, ⟨0, 1⟩, ⟨0, 1⟩, ⟨-1, 0⟩, ⟨1, 0⟩, ⟨-1, 0⟩, ⟨1, 0⟩] ∧
    computeMidpointCircle 0 0 0 (-1) = some
      [⟨0, -1⟩, ⟨0, -1⟩, ⟨0, 1⟩, ⟨0, 1⟩, ⟨-1, 0⟩, ⟨1, 0⟩, ⟨-1, 0⟩, ⟨1, 0⟩] := by
  decide

/-- C8 (amended).  For every centre and every negative radius `r`, neither
circle function rejects the input: the loop guard is false at `(0, r)`, so
each returns, whatever the fuel, exactly the eight points of the initial block
`(xc, yc ± r)`, `(xc ± r, yc)` (each twice). -/
theorem negative_radius_returns_initial_block (xc yc r : Int) (fuel : Nat) (hr : r < 0) :
    computeBresenhamCircle fuel xc yc r = some
      [⟨xc + 0, yc + r⟩, ⟨xc - 0, yc + r⟩, ⟨xc + 0, yc - r⟩, ⟨xc - 0, yc - r⟩,
       ⟨xc + r, yc + 0⟩, ⟨xc - r, yc + 0⟩, ⟨xc + r, yc - 0⟩, ⟨xc - r, yc - 0⟩] ∧
    computeMidpointCircle fuel xc yc r = some
      [⟨xc + 0, yc + r⟩, ⟨xc - 0, yc + r⟩, ⟨xc + 0, yc - r⟩, ⟨xc - 0, yc - r⟩,
       ⟨xc + r, yc + 0⟩, ⟨xc - r, yc + 0⟩, ⟨xc + r, yc - 0⟩, ⟨xc - r, yc - 0⟩] := by
  have h1 := bresenhamCircleLoop_exit xc yc fuel 0 r (3 - 2 * r) (by omega)
  have h2 := midpointCircleLoop_exit xc yc fuel 0 r (1 - r) (by omega)
  constructor
  · simp only [computeBresenhamCircle, h1, Option.map_some', addPoints, List.append_nil]
  · simp only [computeMidpointCircle, h2, Option.map_some', addPoints, List.append_nil]

/-- Witness for the amended C8 at centre `(225, 385)` and radius `-80`. -/
theorem negative_radius_returns_initial_block_witness :
    computeBresenhamCircle 0 225 385 (-80) = some
      [⟨225 + 0, 385 + -80⟩, ⟨225 - 0, 385 + -80⟩, ⟨225 + 0, 385 - -80⟩, ⟨225 - 0, 385 - -80⟩,
       ⟨225 + -80, 385 + 0⟩, ⟨225 - -80, 385 + 0⟩, ⟨225 + -80, 385 - 0⟩, ⟨225 - -80, 385 - 0⟩] ∧
    computeMidpointCircle 0 225 385 (-80) = some
      [⟨225 + 0, 385 + -80⟩, ⟨225 - 0, 385 + -80⟩, ⟨225 + 0, 385 - -80⟩, ⟨225 - 0, 385 - -80⟩,
       ⟨225 + -80, 385 + 0⟩, ⟨225 - -80, 385 + 0⟩, ⟨225 + -80, 385 - 0⟩, ⟨225 - -80, 385 - 0⟩] :=
  negative_radius_returns_initial_block 225 385 (-80) 0 (by decide)

/-- C9 (evaluation at the failing input).  For coincident endpoints
`computeDDA` has `steps = 0` and computes both increments as
`(float)0 / (float)0`: the division by zero is performed.  The single loop
iteration pushes the rounded start point before the increments are used. -/
theorem computeDDA_coincident_divides_by_zero {F : Type} (ops : FloatOps F) (x1 y1 : Int) :
    ddaSteps x1 y1 x1 y1 = 0 ∧
    ddaIncrements ops x1 y1 x1 y1 =
      (ops.div (ops.ofInt 0) (ops.ofInt 0), ops.div (ops.ofInt 0) (ops.ofInt 0)) ∧
    computeDDA ops x1 y1 x1 y1 = [⟨ops.round (ops.ofInt x1), ops.round (ops.ofInt y1)⟩] := by
  have h : ddaSteps x1 y1 x1 y1 = 0 := by simp [ddaSteps, iabs]
  refine ⟨h, ?_, ?_⟩
  · simp [ddaIncrements, h]
  · simp [computeDDA, h, ddaLoop]

/-- C10.  For all integer endpoints, every point `(x, y)` of the sequence
returned by `computeBresenhamLine` lies within half a pixel of the ideal
segment along the minor axis:
`2 * |(x - x1) * (y2 - y1) - (y - y1) * (x2 - x1)| ≤ max(|x2 - x1|, |y2 - y1|)`. -/
theorem computeBresenhamLine_half_pixel (x1 y1 x2 y2 : Int) (fuel : Nat)
    (hf : max |x2 - x1| |y2 - y1| < (fuel : Int)) :
    ∃ l, computeBresenhamLine fuel x1 y1 x2 y2 = some l ∧
      ∀ p ∈ l, 2 * |(p.x - x1) * (y2 - y1) - (p.y - y1) * (x2 - x1)|
        ≤ max |x2 - x1| |y2 - y1| := by
  obtain ⟨l, h1, -, -, -, h5⟩ := computeBresenhamLine_spec x1 y1 x2 y2 fuel hf
  exact ⟨l, h1, h5⟩

/-- Witness for C10 at the call `computeBresenhamLine(500, 630, 750, 720)`
made by `init`. -/
theorem computeBresenhamLine_half_pixel_witness :
    ∃ l, computeBresenhamLine 251 500 630 750 720 = some l ∧
      ∀ p ∈ l, 2 * |(p.x - 500) * ((720 : Int) - 630) - (p.y - 630) * ((750 : Int) - 500)|
        ≤ max |(750 : Int) - 500| |(720 : Int) - 630| :=
  computeBresenhamLine_half_pixel 500 630 750 720 251 (by decide)

end CGMidSem
